import Mathlib

/-!
Verification of the deoxys-test repository: a driver that accumulates
per-contract (key, value) storage diffs and checks that two Merkle–Patricia
trie implementations compute the same storage root hash.

The file embeds, as executable Lean definitions:
  * an association-list model of the Rust `HashMap` operations the driver
    uses (`lookupKV`, `setKV`, fold-based `collect`/`extend`),
  * the key → 251-bit path encoding (`to_bytes_be`, `view_bits_msb`, drop 5),
  * the retry loop `get_state_update`,
  * the accumulation function `save_storage_update`,
  * the persistence helper `commit_and_persist`,
  * a trie model (node kinds, insertion with path splitting, commit-time
    hashing) for the trie algorithm itself, which lives in external crates
    and is modelled from the specification.
-/

namespace DeoxysTest

/-! ## Association-list maps (model of Rust `HashMap` lookup/insert semantics) -/

/-- Lookup in an association list: the value of the first pair whose key
matches.  Models `HashMap::get`. -/
def lookupKV {α : Type} {β : Type} [DecidableEq α] : List (α × β) → α → Option β
  | [], _ => none
  | kv :: rest, k => if kv.1 = k then some kv.2 else lookupKV rest k

/-- Remove every pair with the given key. -/
def eraseKey {α : Type} {β : Type} [DecidableEq α] : List (α × β) → α → List (α × β)
  | [], _ => []
  | kv :: rest, k => if kv.1 = k then eraseKey rest k else kv :: eraseKey rest k

/-- Insert, overwriting any previous binding of the key.
Models `HashMap::insert` (extensionally: same lookup function). -/
def setKV {α : Type} {β : Type} [DecidableEq α] (m : List (α × β)) (k : α) (v : β) :
    List (α × β) :=
  (k, v) :: eraseKey m k

/-- Left-biased `Option` choice with the *first* argument preferred. -/
def orO {β : Type} : Option β → Option β → Option β
  | some v, _ => some v
  | none, b => b

/-- The value of the *last* pair of the list carrying the given key
(last-write-wins view of a list of writes). -/
def lastVal {α : Type} {β : Type} [DecidableEq α] : List (α × β) → α → Option β
  | [], _ => none
  | kv :: rest, k => orO (lastVal rest k) (if kv.1 = k then some kv.2 else none)

@[simp] theorem orO_none_left {β : Type} (b : Option β) : orO none b = b := rfl

@[simp] theorem orO_some_left {β : Type} (v : β) (b : Option β) :
    orO (some v) b = some v := rfl

@[simp] theorem orO_none_right {β : Type} (a : Option β) : orO a none = a := by
  cases a <;> rfl

theorem orO_assoc {β : Type} (a b c : Option β) :
    orO (orO a b) c = orO a (orO b c) := by
  cases a <;> cases b <;> rfl

theorem lookupKV_eraseKey {α β : Type} [DecidableEq α] (m : List (α × β)) (k k' : α) :
    lookupKV (eraseKey m k) k' = if k' = k then none else lookupKV m k' := by
  induction m with
  | nil => simp [eraseKey, lookupKV]
  | cons kv rest ih =>
    simp only [eraseKey]
    by_cases h1 : kv.1 = k
    · rw [if_pos h1, ih]
      by_cases h3 : k' = k
      · rw [if_pos h3, if_pos h3]
      · have h2 : ¬ kv.1 = k' := fun hh => h3 (hh.symm.trans h1)
        rw [if_neg h3, if_neg h3, lookupKV, if_neg h2]
    · rw [if_neg h1]
      simp only [lookupKV]
      by_cases h2 : kv.1 = k'
      · have hk : ¬ k' = k := fun h => h1 (h2.trans h)
        rw [if_pos h2, if_neg hk, if_pos h2]
      · rw [if_neg h2, ih, if_neg h2]

theorem lookupKV_setKV {α β : Type} [DecidableEq α] (m : List (α × β)) (k k' : α) (v : β) :
    lookupKV (setKV m k v) k' = if k = k' then some v else lookupKV m k' := by
  by_cases h : k = k'
  · simp [setKV, lookupKV, h]
  · have h' : ¬ k' = k := fun hh => h hh.symm
    simp [setKV, lookupKV, h, lookupKV_eraseKey, h']

/-- A key erased from the map cannot be a key of the result. -/
theorem not_mem_keys_eraseKey {α β : Type} [DecidableEq α]
    (m : List (α × β)) (k : α) : k ∉ (eraseKey m k).map Prod.fst := by
  induction m with
  | nil => simp [eraseKey]
  | cons kv rest ih =>
    by_cases h1 : kv.1 = k
    · simpa [eraseKey, h1] using ih
    · simp only [eraseKey, h1, if_false, List.map_cons, List.mem_cons]
      rintro (h | h)
      · exact h1 h.symm
      · exact ih h

/-- Erasure only removes pairs. -/
theorem mem_of_mem_eraseKey {α β : Type} [DecidableEq α]
    {m : List (α × β)} {k : α} {kv : α × β} (h : kv ∈ eraseKey m k) : kv ∈ m := by
  induction m with
  | nil => exact h
  | cons a rest ih =>
    by_cases ha : a.1 = k
    · simp only [eraseKey, ha, if_true] at h
      exact List.mem_cons_of_mem _ (ih h)
    · simp only [eraseKey, ha, if_false, List.mem_cons] at h
      rcases h with h | h
      · exact List.mem_cons.mpr (Or.inl h)
      · exact List.mem_cons_of_mem _ (ih h)

theorem mem_keys_of_mem_keys_eraseKey {α β : Type} [DecidableEq α]
    {m : List (α × β)} {k x : α} (h : x ∈ (eraseKey m k).map Prod.fst) :
    x ∈ m.map Prod.fst := by
  rcases List.mem_map.mp h with ⟨kv, hm, hx⟩
  exact List.mem_map.mpr ⟨kv, mem_of_mem_eraseKey hm, hx⟩

theorem nodup_keys_eraseKey {α β : Type} [DecidableEq α]
    {m : List (α × β)} (k : α) (h : (m.map Prod.fst).Nodup) :
    ((eraseKey m k).map Prod.fst).Nodup := by
  induction m with
  | nil => simp [eraseKey]
  | cons kv rest ih =>
    simp only [List.map_cons, List.nodup_cons] at h
    by_cases h1 : kv.1 = k
    · simpa [eraseKey, h1] using ih h.2
    · simp only [eraseKey, h1, if_false, List.map_cons, List.nodup_cons]
      exact ⟨fun hm => h.1 (mem_keys_of_mem_keys_eraseKey hm), ih h.2⟩

theorem nodup_keys_setKV {α β : Type} [DecidableEq α]
    {m : List (α × β)} (k : α) (v : β) (h : (m.map Prod.fst).Nodup) :
    ((setKV m k v).map Prod.fst).Nodup := by
  simp only [setKV, List.map_cons, List.nodup_cons]
  exact ⟨not_mem_keys_eraseKey m k, nodup_keys_eraseKey k h⟩

/-- Applying a list of writes with `setKV`, from left to right. -/
def applyAll {α β : Type} [DecidableEq α]
    (acc : List (α × β)) (writes : List (α × β)) : List (α × β) :=
  writes.foldl (fun a kv => setKV a kv.1 kv.2) acc

theorem lookupKV_applyAll {α β : Type} [DecidableEq α]
    (writes : List (α × β)) (acc : List (α × β)) (k : α) :
    lookupKV (applyAll acc writes) k = orO (lastVal writes k) (lookupKV acc k) := by
  induction writes generalizing acc with
  | nil => simp [applyAll, lastVal]
  | cons kv rest ih =>
    have step : applyAll acc (kv :: rest) = applyAll (setKV acc kv.1 kv.2) rest := rfl
    rw [step, ih]
    have h2 : lastVal (kv :: rest) k
        = orO (lastVal rest k) (if kv.1 = k then some kv.2 else none) := rfl
    rw [h2, orO_assoc]
    congr 1
    rw [lookupKV_setKV]
    by_cases h : kv.1 = k <;> simp [h]

theorem nodup_keys_applyAll {α β : Type} [DecidableEq α]
    (writes : List (α × β)) (acc : List (α × β)) (h : (acc.map Prod.fst).Nodup) :
    ((applyAll acc writes).map Prod.fst).Nodup := by
  induction writes generalizing acc with
  | nil => exact h
  | cons kv rest ih => exact ih _ (nodup_keys_setKV kv.1 kv.2 h)

theorem mem_applyAll {α β : Type} [DecidableEq α]
    (writes : List (α × β)) (acc : List (α × β)) {kv : α × β}
    (h : kv ∈ applyAll acc writes) : kv ∈ acc ∨ kv ∈ writes := by
  induction writes generalizing acc with
  | nil => exact Or.inl h
  | cons w rest ih =>
    have step : applyAll acc (w :: rest) = applyAll (setKV acc w.1 w.2) rest := rfl
    rw [step] at h
    rcases ih _ h with h1 | h1
    · simp only [setKV, List.mem_cons] at h1
      rcases h1 with h1 | h1
      · exact Or.inr (List.mem_cons.mpr (Or.inl (by rw [h1])))
      · exact Or.inl (mem_of_mem_eraseKey h1)
    · exact Or.inr (List.mem_cons_of_mem _ h1)

/-- With duplicate-free keys, the last and the first (i.e. any) binding agree. -/
theorem lastVal_of_not_mem {α β : Type} [DecidableEq α]
    {m : List (α × β)} {k : α} (h : k ∉ m.map Prod.fst) : lastVal m k = none := by
  induction m with
  | nil => rfl
  | cons kv rest ih =>
    simp only [List.map_cons, List.mem_cons] at h
    push_neg at h
    have h1 : ¬ kv.1 = k := fun hh => h.1 hh.symm
    simp [lastVal, h1, ih h.2]

theorem lastVal_eq_lookupKV {α β : Type} [DecidableEq α]
    {m : List (α × β)} (hnd : (m.map Prod.fst).Nodup) (k : α) :
    lastVal m k = lookupKV m k := by
  induction m with
  | nil => rfl
  | cons kv rest ih =>
    simp only [List.map_cons, List.nodup_cons] at hnd
    by_cases h1 : kv.1 = k
    · have : k ∉ rest.map Prod.fst := h1 ▸ hnd.1
      simp [lastVal, lookupKV, h1, lastVal_of_not_mem this]
    · simp [lastVal, lookupKV, h1, ih hnd.2]

/-! ## PathEncoder: key bytes → 251-bit traversal path

Embeds `key.to_bytes_be().view_bits()[5..]` from `bonsai_storage_root`
(src/src/main.rs:130) and `pathfinder_storage_root` (src/src/main.rs:156).
`view_bits` is the `Msb0` bit view of the byte slice (most significant bit
of each byte first), as required by both tries' key types. -/

/-- The eight bits of one byte, most significant first (`Msb0` order). -/
def byteBitsMsb (b : Nat) : List Bool :=
  (List.range 8).map (fun j => b.testBit (7 - j))

/-- Big-endian byte decomposition of the low `8*m` bits of `k` into `m` bytes. -/
def bytesBE (m : Nat) (k : Nat) : List Nat :=
  (List.range m).map (fun i => k / 2 ^ (8 * (m - 1 - i)) % 256)

/-- `FieldElement::to_bytes_be`: the 32-byte big-endian representation. -/
def to_bytes_be (k : Nat) : List Nat := bytesBE 32 k

/-- `view_bits::<Msb0>` over a byte slice: all bits, most significant first. -/
def view_bits_msb (bytes : List Nat) : List Bool :=
  (bytes.map byteBitsMsb).flatten

/-- The key path handed to `bonsai_storage.insert` (src/src/main.rs:130). -/
def bonsaiKeyPath (k : Nat) : List Bool :=
  (view_bits_msb (to_bytes_be k)).drop 5

/-- The key path handed to `pathfinder_merkle_tree.set` (src/src/main.rs:156). -/
def pathfinderKeyPath (k : Nat) : List Bool :=
  (view_bits_msb (to_bytes_be k)).drop 5

theorem bytesBE_succ (m k : Nat) :
    bytesBE (m + 1) k = (k / 2 ^ (8 * m) % 256) :: bytesBE m k := by
  simp only [bytesBE, List.range_succ_eq_map, List.map_cons, List.map_map]
  refine List.cons_eq_cons.mpr ⟨by norm_num, ?_⟩
  apply List.map_congr_left
  intro i _
  simp only [Function.comp_apply, Nat.succ_eq_add_one]
  have he : m + 1 - 1 - (i + 1) = m - 1 - i := by omega
  rw [he]

theorem testBit_byte (k m j : Nat) (hj : j < 8) :
    (k / 2 ^ (8 * m) % 256).testBit (7 - j) = k.testBit (8 * m + 7 - j) := by
  have h256 : (256 : Nat) = 2 ^ 8 := by norm_num
  rw [h256, Nat.testBit_mod_two_pow, ← Nat.shiftRight_eq_div_pow, Nat.testBit_shiftRight]
  have h1 : 7 - j < 8 := by omega
  have h2 : 8 * m + (7 - j) = 8 * m + 7 - j := by omega
  simp [h1, h2]

/-- The `Msb0` bit view of the big-endian bytes of `k` is the most-significant-first
bit sequence of `k`'s low `8*m` bits. -/
theorem view_bits_bytesBE (m k : Nat) :
    view_bits_msb (bytesBE m k)
      = (List.range (8 * m)).map (fun t => k.testBit (8 * m - 1 - t)) := by
  induction m with
  | zero => simp [view_bits_msb, bytesBE]
  | succ n ih =>
    rw [bytesBE_succ]
    have hsplit : 8 * (n + 1) = 8 + 8 * n := by ring
    rw [hsplit, List.range_add, List.map_append]
    have hL : view_bits_msb ((k / 2 ^ (8 * n) % 256) :: bytesBE n k)
        = byteBitsMsb (k / 2 ^ (8 * n) % 256) ++ view_bits_msb (bytesBE n k) := by
      simp [view_bits_msb]
    rw [hL, ih]
    congr 1
    · simp only [byteBitsMsb]
      apply List.map_congr_left
      intro j hj
      have hj8 : j < 8 := List.mem_range.mp hj
      rw [testBit_byte k n j hj8]
      congr 1
      omega
    · rw [List.map_map]
      apply List.map_congr_left
      intro t _
      simp only [Function.comp_apply]
      congr 1
      omega

theorem view_bits_to_bytes_be (k : Nat) :
    view_bits_msb (to_bytes_be k)
      = (List.range 256).map (fun t => k.testBit (255 - t)) := by
  have h := view_bits_bytesBE 32 k
  simpa [to_bytes_be] using h

/-- Helper characterization of the encoded key path: 251 bits, the bit at
position `t` being bit `250 - t` of the key reduced modulo `2 ^ 251`. -/
theorem bonsaiKeyPath_eq (k : Nat) :
    bonsaiKeyPath k
      = (List.range 251).map (fun t => (k % 2 ^ 251).testBit (250 - t)) := by
  rw [bonsaiKeyPath, view_bits_to_bytes_be]
  have h256 : (256 : Nat) = 5 + 251 := by norm_num
  rw [h256, List.range_add, List.map_append]
  have hdrop := List.drop_left ((List.range 5).map (fun t => k.testBit (255 - t)))
      (((List.range 251).map (fun x => 5 + x)).map (fun t => k.testBit (255 - t)))
  have h5 : ((List.range 5).map (fun t => k.testBit (255 - t))).length = 5 := by simp
  rw [h5] at hdrop
  rw [List.map_map] at hdrop ⊢
  rw [hdrop]
  apply List.map_congr_left
  intro t ht
  have ht251 : t < 251 := List.mem_range.mp ht
  simp only [Function.comp_apply]
  rw [Nat.testBit_mod_two_pow]
  have h1 : 250 - t < 251 := by omega
  have h2 : 255 - (5 + t) = 250 - t := by omega
  simp [h1, h2]

theorem bonsaiKeyPath_length (k : Nat) : (bonsaiKeyPath k).length = 251 := by
  rw [bonsaiKeyPath_eq]; simp

theorem pathfinderKeyPath_eq_bonsai (k : Nat) :
    pathfinderKeyPath k = bonsaiKeyPath k := rfl

/-! ## Trie model

Modelled from the spec: the binary Merkle–Patricia trie with path compression
(§3 data model, §4.2 insert engine, §4.3 hasher, §8 empty root sentinel).
The two concrete engines (`bonsai_trie`, `pathfinder_merkle_tree`) are
external crates, not part of this repository's sources; the spec describes
the single algorithm both implement, and this model follows it.  The hash
function `H` is an abstract parameter (the spec only requires both sides to
use the identical two-input arithmetic hash). -/

/-- Trie nodes.  A leaf's value is stored inline; `edge p c` is a compressed
run of bits `p` (nonempty in canonical trees) above child `c`; `binary` has
two mandatory children.  `LeafEdge{path}` of the spec is `edge p (leaf v)`,
`LeafBinary` is a `leaf` sitting directly under a `binary` node. -/
inductive TrieNode where
  | leaf (value : Nat)
  | edge (path : List Bool) (child : TrieNode)
  | binary (left right : TrieNode)
deriving DecidableEq, Repr

/-- Prepend one bit to a subtree, merging into an existing edge (path
compression). -/
def extendBit (b : Bool) : TrieNode → TrieNode
  | .edge p c => .edge (b :: p) c
  | t => .edge [b] t

/-- Prepend a whole bit path to a subtree, compressing into edges. -/
def mkEdge (p : List Bool) (t : TrieNode) : TrieNode := p.foldr extendBit t

/-- Structural size used as the termination measure of insertion. -/
def tsize : TrieNode → Nat
  | .leaf _ => 1
  | .edge p c => p.length + tsize c + 1
  | .binary l r => tsize l + tsize r + 1

/-- Spec §4.2: walk the key path from the node, splitting a compressed edge
at the point of divergence into a `binary` with the old remainder on one
side and the new key's remainder on the other; overwrite on an exact hit. -/
def insertGo (node : TrieNode) (key : List Bool) (v : Nat) : TrieNode :=
  match node, key with
  | .leaf _, _ => .leaf v
  | .binary l r, [] => .binary l r
  | .binary l r, b :: key' =>
      if b then .binary l (insertGo r key' v) else .binary (insertGo l key' v) r
  | .edge [] c, key => insertGo c key v
  | .edge (pb :: p') c, [] => .edge (pb :: p') c
  | .edge (pb :: p') c, kb :: key' =>
      if pb = kb then extendBit pb (insertGo (.edge p' c) key' v)
      else
        let oldSide := mkEdge p' c
        let newSide := mkEdge key' (.leaf v)
        if pb then .binary newSide oldSide else .binary oldSide newSide
termination_by tsize node
decreasing_by
  all_goals simp [tsize] <;> omega

/-- Insertion into a possibly-empty trie (spec §4.2: creating the minimal
leaf/edge structure when the trie is empty). -/
def insertT (t : Option TrieNode) (key : List Bool) (v : Nat) : Option TrieNode :=
  match t with
  | none => some (mkEdge key (.leaf v))
  | some n => some (insertGo n key v)

/-- Insert a list of (bit path, value) pairs left to right into an empty trie:
the accumulate-then-commit pipeline both trie engines are driven through. -/
def insertAll (pairs : List (List Bool × Nat)) : Option TrieNode :=
  pairs.foldl (fun t kv => insertT t kv.1 kv.2) none

/-- The integer encoding of a bit path, most significant bit first. -/
def pathVal (p : List Bool) : Nat :=
  p.foldl (fun a b => 2 * a + cond b 1 0) 0

/-- Spec §4.3 hasher: leaves hash to their value, an edge node hashes to
`H(child, encode(path))` with the path bit-length folded in, a binary node
hashes to `H(left, right)`. -/
def nodeHash (H : Nat → Nat → Nat) : TrieNode → Nat
  | .leaf v => v
  | .edge p c => H (nodeHash H c) (pathVal p) + p.length
  | .binary l r => H (nodeHash H l) (nodeHash H r)

/-- Spec §8: the empty trie commits to the sentinel root 0. -/
def rootHash (H : Nat → Nat → Nat) : Option TrieNode → Nat
  | none => 0
  | some t => nodeHash H t

/-- Keep the pairs whose key starts with bit `b`, with that bit consumed. -/
def splitBit (b : Bool) : List (List Bool × Nat) → List (List Bool × Nat)
  | [] => []
  | (k, v) :: rest =>
    match k with
    | [] => splitBit b rest
    | c :: ktail => if c = b then (ktail, v) :: splitBit b rest else splitBit b rest

/-- The canonical compressed trie of a key→value mapping of depth `n`:
a direct recursive construction that depends only on the mapping (the spec's
"root hash is a pure function of the final key→value mapping").  Returns
`none` for the empty mapping. -/
def build : Nat → List (List Bool × Nat) → Option TrieNode
  | 0, [] => none
  | 0, kv :: _ => some (.leaf kv.2)
  | _ + 1, [] => none
  | n + 1, pairs@(_ :: _) =>
      match build n (splitBit false pairs), build n (splitBit true pairs) with
      | some l, some r => some (.binary l r)
      | some l, none => some (extendBit false l)
      | none, some r => some (extendBit true r)
      | none, none => none

/-- Does the node have a constructor other than `edge`? -/
def notEdgeB : TrieNode → Bool
  | .edge _ _ => false
  | _ => true

/-- Canonical form: every edge has a nonempty path and a non-edge child. -/
def canonicalB : TrieNode → Bool
  | .leaf _ => true
  | .edge p c => !p.isEmpty && notEdgeB c && canonicalB c
  | .binary l r => canonicalB l && canonicalB r

/-- Spec §4.2 / §7: insert rejects key paths whose length is not the
configured depth 251 with the typed error `InvalidKeyLength`. -/
inductive TrieError where
  | invalidKeyLength
deriving DecidableEq, Repr

/-- Modelled from the spec: the external tries' insert operation including
its `InvalidKeyLength` guard (spec §4.2 error conditions). -/
def insert_checked (t : Option TrieNode) (key : List Bool) (v : Nat) :
    Except TrieError (Option TrieNode) :=
  if key.length = 251 then .ok (insertT t key v) else .error .invalidKeyLength

/-! ### Structural lemmas about the trie model -/

@[simp] theorem mkEdge_nil (t : TrieNode) : mkEdge [] t = t := rfl

theorem mkEdge_cons (b : Bool) (p : List Bool) (t : TrieNode) :
    mkEdge (b :: p) t = extendBit b (mkEdge p t) := rfl

theorem mkEdge_of_notEdge {c : TrieNode} (hc : notEdgeB c = true)
    {p : List Bool} (hp : p ≠ []) : mkEdge p c = .edge p c := by
  induction p with
  | nil => exact absurd rfl hp
  | cons b p' ih =>
    cases p' with
    | nil =>
      cases c <;> simp_all [mkEdge, extendBit, notEdgeB]
    | cons b2 p2 =>
      rw [mkEdge_cons, ih (by simp), extendBit]

theorem canonicalB_extendBit {t : TrieNode} (h : canonicalB t = true) (b : Bool) :
    canonicalB (extendBit b t) = true := by
  cases t <;> simp_all [extendBit, canonicalB, notEdgeB]

theorem build_canonical :
    ∀ (n : Nat) (pairs : List (List Bool × Nat)) {t : TrieNode},
      build n pairs = some t → canonicalB t = true := by
  intro n
  induction n with
  | zero =>
    intro pairs t h
    cases pairs with
    | nil => simp [build] at h
    | cons kv rest => simp only [build, Option.some.injEq] at h; subst h; rfl
  | succ n ih =>
    intro pairs t h
    cases pairs with
    | nil => simp [build] at h
    | cons kv rest =>
      simp only [build] at h
      rcases hL : build n (splitBit false (kv :: rest)) with _ | nl <;>
        rcases hR : build n (splitBit true (kv :: rest)) with _ | nr <;>
          rw [hL, hR] at h <;> simp only [Option.some.injEq] at h
      · exact absurd h (by simp)
      · subst h; exact canonicalB_extendBit (ih _ hR) true
      · subst h; exact canonicalB_extendBit (ih _ hL) false
      · subst h
        have h1 := ih _ hL
        have h2 := ih _ hR
        simp [canonicalB, h1, h2]

theorem mem_splitBit {b : Bool} {pairs : List (List Bool × Nat)}
    {t : List Bool} {v : Nat} :
    (t, v) ∈ splitBit b pairs ↔ (b :: t, v) ∈ pairs := by
  induction pairs with
  | nil => simp [splitBit]
  | cons kv rest ih =>
    rcases kv with ⟨k, w⟩
    cases k with
    | nil =>
      simp only [splitBit, ih, List.mem_cons]
      constructor
      · exact Or.inr
      · rintro (h | h)
        · exact absurd h (by simp)
        · exact h
    | cons c ktail =>
      by_cases hc : c = b
      · subst hc
        simp only [splitBit]
        rw [if_pos trivial]
        simp only [List.mem_cons, ih, Prod.mk.injEq, List.cons.injEq]
        constructor
        · rintro (⟨h1, h2⟩ | h)
          · exact Or.inl ⟨⟨trivial, h1⟩, h2⟩
          · exact Or.inr h
        · rintro (⟨⟨_, h1⟩, h2⟩ | h)
          · exact Or.inl ⟨h1, h2⟩
          · exact Or.inr h
      · simp only [splitBit]
        rw [if_neg hc]
        simp only [ih, List.mem_cons, Prod.mk.injEq, List.cons.injEq]
        constructor
        · exact Or.inr
        · rintro (⟨⟨h1, _⟩, _⟩ | h)
          · exact absurd h1.symm hc
          · exact h

theorem splitBit_len {n : Nat} {pairs : List (List Bool × Nat)}
    (h : ∀ kv ∈ pairs, kv.1.length = n + 1) (b : Bool) :
    ∀ kv ∈ splitBit b pairs, kv.1.length = n := by
  rintro ⟨t, v⟩ hm
  have := h (b :: t, v) (mem_splitBit.mp hm)
  simpa using this

theorem build_nil (n : Nat) : build n [] = none := by
  cases n <;> rfl

theorem build_cons (n : Nat) (kv : List Bool × Nat) (rest : List (List Bool × Nat)) :
    build (n + 1) (kv :: rest)
      = match build n (splitBit false (kv :: rest)), build n (splitBit true (kv :: rest)) with
        | some l, some r => some (.binary l r)
        | some l, none => some (extendBit false l)
        | none, some r => some (extendBit true r)
        | none, none => none := rfl

theorem build_eq_none {n : Nat} {pairs : List (List Bool × Nat)}
    (hlen : ∀ kv ∈ pairs, kv.1.length = n) (h : build n pairs = none) :
    pairs = [] := by
  induction n generalizing pairs with
  | zero =>
    cases pairs with
    | nil => rfl
    | cons kv rest => simp [build] at h
  | succ n ih =>
    cases pairs with
    | nil => rfl
    | cons kv rest =>
      rw [build_cons] at h
      rcases hL : build n (splitBit false (kv :: rest)) with _ | nl <;>
        rcases hR : build n (splitBit true (kv :: rest)) with _ | nr <;>
          rw [hL, hR] at h <;> simp at h
      have hfalse := ih (splitBit_len hlen false) hL
      have htrue := ih (splitBit_len hlen true) hR
      rcases kv with ⟨k, v⟩
      have hk := hlen (k, v) (by simp)
      cases k with
      | nil => simp at hk
      | cons c ktail =>
        cases c
        · have : (ktail, v) ∈ splitBit false ((false :: ktail, v) :: rest) :=
            mem_splitBit.mpr (by simp)
          rw [hfalse] at this
          simp at this
        · have : (ktail, v) ∈ splitBit true ((true :: ktail, v) :: rest) :=
            mem_splitBit.mpr (by simp)
          rw [htrue] at this
          simp at this

theorem build_singleton :
    ∀ (n : Nat) (p : List Bool) (v : Nat), p.length = n →
      build n [(p, v)] = some (mkEdge p (.leaf v)) := by
  intro n
  induction n with
  | zero =>
    intro p v hp
    rw [List.length_eq_zero.mp hp]
    rfl
  | succ n ih =>
    intro p v hp
    cases p with
    | nil => simp at hp
    | cons c ptail =>
      have hlen : ptail.length = n := by simpa using hp
      cases c
      · have h1 : splitBit false [(false :: ptail, v)] = [(ptail, v)] := by
          simp [splitBit]
        have h2 : splitBit true [(false :: ptail, v)] = [] := by
          simp [splitBit]
        rw [build_cons, h1, h2, build_nil, ih ptail v hlen, mkEdge_cons]
      · have h1 : splitBit false [(true :: ptail, v)] = [] := by
          simp [splitBit]
        have h2 : splitBit true [(true :: ptail, v)] = [(ptail, v)] := by
          simp [splitBit]
        rw [build_cons, h1, h2, build_nil, ih ptail v hlen, mkEdge_cons]

theorem eraseKey_all {α β : Type} [DecidableEq α]
    {m : List (α × β)} {k : α} (h : ∀ kv ∈ m, kv.1 = k) : eraseKey m k = [] := by
  induction m with
  | nil => rfl
  | cons kv rest ih =>
    have h1 : kv.1 = k := h kv (by simp)
    simp only [eraseKey, h1, if_true]
    exact ih (fun kv hm => h kv (List.mem_cons_of_mem _ hm))

/-- Splitting on bit `b` commutes with erasing a key that starts with `b`. -/
theorem splitBit_eraseKey_eq (b : Bool) (key' : List Bool)
    (pairs : List (List Bool × Nat)) :
    splitBit b (eraseKey pairs (b :: key')) = eraseKey (splitBit b pairs) key' := by
  induction pairs with
  | nil => rfl
  | cons kv rest ih =>
    rcases kv with ⟨k, w⟩
    cases k with
    | nil =>
      have h0 : ¬ (([] : List Bool) = b :: key') := by simp
      simp [eraseKey, h0, splitBit, ih]
    | cons d ktail =>
      by_cases hdb : d = b
      · subst hdb
        by_cases hkt : ktail = key'
        · subst hkt
          simp [eraseKey, splitBit, ih]
        · simp [eraseKey, splitBit, ih, hkt]
      · simp [eraseKey, splitBit, ih, hdb]

/-- Splitting on a bit `c` ignores erasure of a key starting with `b ≠ c`. -/
theorem splitBit_eraseKey_ne (c b : Bool) (key' : List Bool)
    (pairs : List (List Bool × Nat)) (hcb : ¬ c = b) :
    splitBit c (eraseKey pairs (b :: key')) = splitBit c pairs := by
  induction pairs with
  | nil => rfl
  | cons kv rest ih =>
    rcases kv with ⟨k, w⟩
    cases k with
    | nil =>
      have h0 : ¬ (([] : List Bool) = b :: key') := by simp
      simp [eraseKey, h0, splitBit, ih]
    | cons d ktail =>
      have hbc : ¬ (b = c) := fun h => hcb h.symm
      by_cases hdb : d = b
      · subst hdb
        by_cases hkt : ktail = key'
        · subst hkt
          simp [eraseKey, splitBit, ih, hbc]
        · simp [eraseKey, splitBit, ih, hkt, hbc]
      · simp [eraseKey, splitBit, ih, hdb]

/-- Splitting on bit `b` after overwriting key `b :: key'` overwrites
`key'` in the split. -/
theorem splitBit_setKV_eq (b : Bool) (key' : List Bool) (v : Nat)
    (pairs : List (List Bool × Nat)) :
    splitBit b (setKV pairs (b :: key') v) = setKV (splitBit b pairs) key' v := by
  simp [setKV, splitBit, splitBit_eraseKey_eq]

/-- Splitting on bit `c` ignores an overwrite of a key starting with `b ≠ c`. -/
theorem splitBit_setKV_ne (c b : Bool) (key' : List Bool) (v : Nat)
    (pairs : List (List Bool × Nat)) (hcb : ¬ c = b) :
    splitBit c (setKV pairs (b :: key') v) = splitBit c pairs := by
  have hbc : ¬ (b = c) := fun h => hcb h.symm
  simp [setKV, splitBit, hbc, splitBit_eraseKey_ne c b key' pairs hcb]

/-- Inserting under a matching first bit goes under the edge bit. -/
theorem insertGo_extendBit_eq (t : TrieNode) (b : Bool) (key' : List Bool) (v : Nat) :
    insertGo (extendBit b t) (b :: key') v = extendBit b (insertGo t key' v) := by
  cases t with
  | leaf w => simp [extendBit, insertGo]
  | binary l r => simp [extendBit, insertGo]
  | edge p c => simp [extendBit, insertGo]

/-- Inserting a key whose first bit diverges from the edge's first bit
splits the root into a binary node: old subtree on the edge-bit side, a
fresh leaf edge on the key side. -/
theorem insertGo_extendBit_ne (t : TrieNode) (b : Bool) (key' : List Bool) (v : Nat)
    (hc : canonicalB t = true) :
    insertGo (extendBit b t) ((!b) :: key') v
      = if b then .binary (mkEdge key' (.leaf v)) t
        else .binary t (mkEdge key' (.leaf v)) := by
  have hbb : ¬ (b = !b) := by cases b <;> simp
  cases t with
  | leaf w => simp [extendBit, insertGo, hbb]
  | binary l r => simp [extendBit, insertGo, hbb]
  | edge p c =>
    simp only [canonicalB, Bool.and_eq_true] at hc
    have hp : p ≠ [] := by
      intro h
      rw [h] at hc
      simp at hc
    have hmk : mkEdge p c = .edge p c := mkEdge_of_notEdge hc.1.2 hp
    simp [extendBit, insertGo, hbb, hmk]

/-- Key lemma (spec §4.2 insert engine versus §3 "pure function of the
mapping"): inserting one key into the canonical trie of a mapping yields the
canonical trie of the mapping overwritten at that key. -/
theorem insertT_build :
    ∀ (n : Nat) (pairs : List (List Bool × Nat)) (key : List Bool) (v : Nat),
      (∀ kv ∈ pairs, kv.1.length = n) → key.length = n →
      insertT (build n pairs) key v = build n (setKV pairs key v) := by
  intro n
  induction n with
  | zero =>
    intro pairs key v hlen hkey
    rw [List.length_eq_zero.mp hkey]
    cases pairs with
    | nil => rfl
    | cons kv rest =>
      have herase : eraseKey (kv :: rest) ([] : List Bool) = [] :=
        eraseKey_all (fun kv' hm => List.length_eq_zero.mp (hlen kv' hm))
      show insertT (build 0 (kv :: rest)) [] v
          = build 0 ((([] : List Bool), v) :: eraseKey (kv :: rest) ([] : List Bool))
      rw [herase]
      have h0 : build 0 (kv :: rest) = some (.leaf kv.2) := rfl
      rw [h0]
      show some (insertGo (.leaf kv.2) [] v) = build 0 [(([] : List Bool), v)]
      rw [show insertGo (.leaf kv.2) [] v = .leaf v by simp [insertGo]]
      rfl
  | succ n ih =>
    intro pairs key v hlen hkey
    cases key with
    | nil => simp at hkey
    | cons b key' =>
      have hkey' : key'.length = n := by simpa using hkey
      cases pairs with
      | nil =>
        rw [build_nil]
        show some (mkEdge (b :: key') (.leaf v))
            = build (n + 1) ((b :: key', v) :: eraseKey ([] : List (List Bool × Nat)) (b :: key'))
        rw [show eraseKey ([] : List (List Bool × Nat)) (b :: key') = [] from rfl]
        rw [build_singleton (n + 1) (b :: key') v (by simpa using hkey)]
      | cons kv0 rest0 =>
        have hlenF := splitBit_len hlen false
        have hlenT := splitBit_len hlen true
        cases b
        case false =>
          have hsplitF : splitBit false (setKV (kv0 :: rest0) (false :: key') v)
              = setKV (splitBit false (kv0 :: rest0)) key' v :=
            splitBit_setKV_eq false key' v (kv0 :: rest0)
          have hsplitT : splitBit true (setKV (kv0 :: rest0) (false :: key') v)
              = splitBit true (kv0 :: rest0) :=
            splitBit_setKV_ne true false key' v (kv0 :: rest0) (by simp)
          have hbuildF : build n (splitBit false (setKV (kv0 :: rest0) (false :: key') v))
              = insertT (build n (splitBit false (kv0 :: rest0))) key' v := by
            rw [hsplitF, ← ih (splitBit false (kv0 :: rest0)) key' v hlenF hkey']
          have hRHS : build (n + 1) (setKV (kv0 :: rest0) (false :: key') v)
              = match insertT (build n (splitBit false (kv0 :: rest0))) key' v,
                      build n (splitBit true (kv0 :: rest0)) with
                | some l, some r => some (.binary l r)
                | some l, none => some (extendBit false l)
                | none, some r => some (extendBit true r)
                | none, none => none := by
            rw [← hbuildF, ← hsplitT]
            exact build_cons n (false :: key', v) (eraseKey (kv0 :: rest0) (false :: key'))
          rw [hRHS]
          rcases hL : build n (splitBit false (kv0 :: rest0)) with _ | nl <;>
            rcases hR : build n (splitBit true (kv0 :: rest0)) with _ | nr
          · have hnone : build (n + 1) (kv0 :: rest0) = none := by
              rw [build_cons, hL, hR]
            exact absurd (build_eq_none hlen hnone) (by simp)
          · have hcan : canonicalB nr = true := build_canonical _ _ hR
            have hstep : insertT (build (n + 1) (kv0 :: rest0)) (false :: key') v
                = some (.binary (mkEdge key' (.leaf v)) nr) := by
              rw [build_cons, hL, hR]
              show some (insertGo (extendBit true nr) (false :: key') v) = _
              have h1 := insertGo_extendBit_ne nr true key' v hcan
              simp only [Bool.not_true] at h1
              rw [h1]
              rfl
            rw [hstep]
            simp only [insertT]
          · have hstep : insertT (build (n + 1) (kv0 :: rest0)) (false :: key') v
                = some (extendBit false (insertGo nl key' v)) := by
              rw [build_cons, hL, hR]
              show some (insertGo (extendBit false nl) (false :: key') v) = _
              rw [insertGo_extendBit_eq]
            rw [hstep]
            simp only [insertT]
          · have hstep : insertT (build (n + 1) (kv0 :: rest0)) (false :: key') v
                = some (.binary (insertGo nl key' v) nr) := by
              rw [build_cons, hL, hR]
              show some (insertGo (.binary nl nr) (false :: key') v) = _
              rw [show insertGo (.binary nl nr) (false :: key') v
                    = .binary (insertGo nl key' v) nr by simp [insertGo]]
            rw [hstep]
            simp only [insertT]
        case true =>
          have hsplitT : splitBit true (setKV (kv0 :: rest0) (true :: key') v)
              = setKV (splitBit true (kv0 :: rest0)) key' v :=
            splitBit_setKV_eq true key' v (kv0 :: rest0)
          have hsplitF : splitBit false (setKV (kv0 :: rest0) (true :: key') v)
              = splitBit false (kv0 :: rest0) :=
            splitBit_setKV_ne false true key' v (kv0 :: rest0) (by simp)
          have hbuildT : build n (splitBit true (setKV (kv0 :: rest0) (true :: key') v))
              = insertT (build n (splitBit true (kv0 :: rest0))) key' v := by
            rw [hsplitT, ← ih (splitBit true (kv0 :: rest0)) key' v hlenT hkey']
          have hRHS : build (n + 1) (setKV (kv0 :: rest0) (true :: key') v)
              = match build n (splitBit false (kv0 :: rest0)),
                      insertT (build n (splitBit true (kv0 :: rest0))) key' v with
                | some l, some r => some (.binary l r)
                | some l, none => some (extendBit false l)
                | none, some r => some (extendBit true r)
                | none, none => none := by
            rw [← hbuildT, ← hsplitF]
            exact build_cons n (true :: key', v) (eraseKey (kv0 :: rest0) (true :: key'))
          rw [hRHS]
          rcases hL : build n (splitBit false (kv0 :: rest0)) with _ | nl <;>
            rcases hR : build n (splitBit true (kv0 :: rest0)) with _ | nr
          · have hnone : build (n + 1) (kv0 :: rest0) = none := by
              rw [build_cons, hL, hR]
            exact absurd (build_eq_none hlen hnone) (by simp)
          · have hstep : insertT (build (n + 1) (kv0 :: rest0)) (true :: key') v
                = some (extendBit true (insertGo nr key' v)) := by
              rw [build_cons, hL, hR]
              show some (insertGo (extendBit true nr) (true :: key') v) = _
              rw [insertGo_extendBit_eq]
            rw [hstep]
            simp only [insertT]
          · have hcan : canonicalB nl = true := build_canonical _ _ hL
            have hstep : insertT (build (n + 1) (kv0 :: rest0)) (true :: key') v
                = some (.binary nl (mkEdge key' (.leaf v))) := by
              rw [build_cons, hL, hR]
              show some (insertGo (extendBit false nl) (true :: key') v) = _
              have h1 := insertGo_extendBit_ne nl false key' v hcan
              simp only [Bool.not_false] at h1
              rw [h1]
              rfl
            rw [hstep]
            simp only [insertT]
          · have hstep : insertT (build (n + 1) (kv0 :: rest0)) (true :: key') v
                = some (.binary nl (insertGo nr key' v)) := by
              rw [build_cons, hL, hR]
              show some (insertGo (.binary nl nr) (true :: key') v) = _
              rw [show insertGo (.binary nl nr) (true :: key') v
                    = .binary nl (insertGo nr key' v) by simp [insertGo]]
            rw [hstep]
            simp only [insertT]

theorem lookupKV_splitBit (b : Bool) (pairs : List (List Bool × Nat)) (t : List Bool) :
    lookupKV (splitBit b pairs) t = lookupKV pairs (b :: t) := by
  induction pairs with
  | nil => rfl
  | cons kv rest ih =>
    rcases kv with ⟨k, w⟩
    cases k with
    | nil =>
      have h0 : ¬ (([] : List Bool) = b :: t) := by simp
      simp [splitBit, lookupKV, h0, ih]
    | cons d ktail =>
      by_cases hdb : d = b
      · subst hdb
        by_cases hkt : ktail = t
        · subst hkt
          simp [splitBit, lookupKV, ih]
        · simp [splitBit, lookupKV, ih, hkt]
      · simp [splitBit, lookupKV, ih, hdb]

theorem nodup_keys_splitBit (b : Bool) {pairs : List (List Bool × Nat)}
    (h : (pairs.map Prod.fst).Nodup) : ((splitBit b pairs).map Prod.fst).Nodup := by
  induction pairs with
  | nil => simp [splitBit]
  | cons kv rest ih =>
    rcases kv with ⟨k, w⟩
    simp only [List.map_cons, List.nodup_cons] at h
    cases k with
    | nil => simpa [splitBit] using ih h.2
    | cons d ktail =>
      by_cases hdb : d = b
      · subst hdb
        simp only [splitBit]
        rw [if_pos trivial]
        simp only [List.map_cons, List.nodup_cons]
        refine ⟨fun hm => ?_, ih h.2⟩
        rcases List.mem_map.mp hm with ⟨⟨t2, w2⟩, hmem, ht2⟩
        have ht2' : t2 = ktail := ht2
        subst ht2'
        have hmem2 : (d :: t2, w2) ∈ rest := mem_splitBit.mp hmem
        exact h.1 (List.mem_map.mpr ⟨(d :: t2, w2), hmem2, rfl⟩)
      · simpa [splitBit, hdb] using ih h.2

/-- The canonical trie is determined by the lookup function of the mapping
(for duplicate-free, uniform-depth key sets): extensionality. -/
theorem build_ext :
    ∀ (n : Nat) (pairs pairs' : List (List Bool × Nat)),
      (∀ kv ∈ pairs, kv.1.length = n) → (∀ kv ∈ pairs', kv.1.length = n) →
      (pairs.map Prod.fst).Nodup → (pairs'.map Prod.fst).Nodup →
      (∀ k, lookupKV pairs k = lookupKV pairs' k) →
      build n pairs = build n pairs' := by
  intro n
  induction n with
  | zero =>
    intro pairs pairs' hlen hlen' hnd hnd' hl
    have hshape : ∀ (q : List (List Bool × Nat)), (∀ kv ∈ q, kv.1.length = 0) →
        (q.map Prod.fst).Nodup → q = [] ∨ ∃ v, q = [(([] : List Bool), v)] := by
      intro q hq hndq
      cases q with
      | nil => exact Or.inl rfl
      | cons kv rest =>
        have h1 : kv.1 = [] := List.length_eq_zero.mp (hq kv (by simp))
        cases rest with
        | nil =>
          right
          exact ⟨kv.2, by rw [← h1]⟩
        | cons kv2 rest2 =>
          have h2 : kv2.1 = [] := List.length_eq_zero.mp (hq kv2 (by simp))
          simp only [List.map_cons, List.nodup_cons, List.mem_cons] at hndq
          exact absurd (Or.inl (h1.trans h2.symm)) hndq.1
    rcases hshape pairs hlen hnd with h | ⟨v, h⟩ <;>
      rcases hshape pairs' hlen' hnd' with h' | ⟨v', h'⟩ <;> subst h <;> subst h'
    · rfl
    · have := hl []
      simp [lookupKV] at this
    · have := hl []
      simp [lookupKV] at this
    · have := hl []
      simp [lookupKV] at this
      rw [this]
  | succ n ih =>
    intro pairs pairs' hlen hlen' hnd hnd' hl
    have hsF : build n (splitBit false pairs) = build n (splitBit false pairs') :=
      ih _ _ (splitBit_len hlen false) (splitBit_len hlen' false)
        (nodup_keys_splitBit false hnd) (nodup_keys_splitBit false hnd')
        (fun k => by rw [lookupKV_splitBit, lookupKV_splitBit, hl])
    have hsT : build n (splitBit true pairs) = build n (splitBit true pairs') :=
      ih _ _ (splitBit_len hlen true) (splitBit_len hlen' true)
        (nodup_keys_splitBit true hnd) (nodup_keys_splitBit true hnd')
        (fun k => by rw [lookupKV_splitBit, lookupKV_splitBit, hl])
    cases pairs with
    | nil =>
      cases pairs' with
      | nil => rfl
      | cons kv' rest' =>
        rw [build_nil]
        have hz : build (n + 1) (kv' :: rest') = none := by
          rw [build_cons, ← hsF, ← hsT]
          rw [show splitBit false ([] : List (List Bool × Nat)) = [] from rfl,
              show splitBit true ([] : List (List Bool × Nat)) = [] from rfl,
              build_nil]
        rw [hz]
    | cons kv rest =>
      cases pairs' with
      | nil =>
        rw [build_nil]
        have hz : build (n + 1) (kv :: rest) = none := by
          rw [build_cons, hsF, hsT]
          rw [show splitBit false ([] : List (List Bool × Nat)) = [] from rfl,
              show splitBit true ([] : List (List Bool × Nat)) = [] from rfl,
              build_nil]
        rw [hz]
      | cons kv' rest' =>
        rw [build_cons, build_cons, hsF, hsT]

/-- Folding the insert engine over a write list equals the canonical trie of
the accumulated mapping. -/
theorem foldl_insertT_build (n : Nat) :
    ∀ (writes : List (List Bool × Nat)) (acc : List (List Bool × Nat)),
      (∀ kv ∈ acc, kv.1.length = n) → (∀ kv ∈ writes, kv.1.length = n) →
      writes.foldl (fun t kv => insertT t kv.1 kv.2) (build n acc)
        = build n (applyAll acc writes) := by
  intro writes
  induction writes with
  | nil => intro acc _ _; rfl
  | cons w rest ih =>
    intro acc hacc hw
    have hw1 : w.1.length = n := hw w (by simp)
    have hstep : insertT (build n acc) w.1 w.2 = build n (setKV acc w.1 w.2) :=
      insertT_build n acc w.1 w.2 hacc hw1
    have haccs : ∀ kv ∈ setKV acc w.1 w.2, kv.1.length = n := by
      rintro kv hkv
      rcases List.mem_cons.mp hkv with h | h
      · rw [h]; exact hw1
      · exact hacc kv (mem_of_mem_eraseKey h)
    calc (w :: rest).foldl (fun t kv => insertT t kv.1 kv.2) (build n acc)
        = rest.foldl (fun t kv => insertT t kv.1 kv.2) (insertT (build n acc) w.1 w.2) := rfl
      _ = rest.foldl (fun t kv => insertT t kv.1 kv.2) (build n (setKV acc w.1 w.2)) := by
            rw [hstep]
      _ = build n (applyAll (setKV acc w.1 w.2) rest) :=
            ih _ haccs (fun kv hkv => hw kv (List.mem_cons_of_mem _ hkv))
      _ = build n (applyAll acc (w :: rest)) := rfl

/-- The full pipeline: insert all pairs into an empty trie, then commit.
It equals the canonical trie of the last-write-wins mapping of the list. -/
theorem insertAll_eq_build (n : Nat) (pairs : List (List Bool × Nat))
    (hlen : ∀ kv ∈ pairs, kv.1.length = n) :
    insertAll pairs = build n (applyAll [] pairs) := by
  have h0 : (build n ([] : List (List Bool × Nat))) = none := build_nil n
  calc insertAll pairs
      = pairs.foldl (fun t kv => insertT t kv.1 kv.2) none := rfl
    _ = pairs.foldl (fun t kv => insertT t kv.1 kv.2) (build n []) := by rw [h0]
    _ = build n (applyAll [] pairs) := foldl_insertT_build n pairs [] (by simp) hlen

/-! ## `save_storage_update` (src/src/main.rs lines 99–115)

`CONTRACT_STORAGE` is a map from contract address to a map from storage key
to value; both maps are modelled extensionally as association lists with
`HashMap` lookup/insert semantics.  Field elements are modelled as `Nat`. -/

/-- The global accumulation store: contract address → (key → value). -/
def ContractStorage : Type := List (Nat × List (Nat × Nat))

/-- `storage_updates.iter().map(|StorageDiff{key,value}| (key,value)).collect()`
followed by either `extend` into the existing per-contract map or insertion
of the fresh map (src/src/main.rs:99–115). -/
def save_storage_update (store : ContractStorage) (contract_address : Nat)
    (storage_updates : List (Nat × Nat)) : ContractStorage :=
  let storage_new : List (Nat × Nat) := applyAll [] storage_updates
  match lookupKV store contract_address with
  | some storage_old =>
      setKV store contract_address (applyAll storage_old storage_new)
  | none => setKV store contract_address storage_new

/-- Two-level lookup: the value of `key` in the map of `addr`, if any. -/
def lookup2 (store : ContractStorage) (addr key : Nat) : Option Nat :=
  match lookupKV store addr with
  | some m => lookupKV m key
  | none => none

/-! ## `get_state_update` (src/src/main.rs lines 81–97)

The provider is modelled as a function from the attempt number to an
optional state update (`none` = that fetch attempt fails).  Wall-clock
sleeping is modelled by accumulating the slept seconds. -/

/-- The retry loop: `retries` counts down from 15; each failed attempt is
followed by a 5-second sleep.  Returns the result together with the total
seconds slept. -/
def getStateUpdateLoop {σ : Type} (fetch : Nat → Option σ) (i : Nat) :
    Nat → Nat → Nat → Except String σ × Nat
  | 0, _, slept => (.error ("Failed to retrieve state update for block " ++ toString i), slept)
  | retries + 1, attempt, slept =>
    match fetch attempt with
    | some su => (.ok su, slept)
    | none => getStateUpdateLoop fetch i retries (attempt + 1) (slept + 5)

/-- `get_state_update`: 15 attempts, 5-second delay after each failure. -/
def get_state_update {σ : Type} (fetch : Nat → Option σ) (i : Nat) :
    Except String σ × Nat :=
  getStateUpdateLoop fetch i 15 0 0

theorem getStateUpdateLoop_all_none {σ : Type} (fetch : Nat → Option σ) (i : Nat) :
    ∀ (r a s : Nat), (∀ j, j < r → fetch (a + j) = none) →
      getStateUpdateLoop fetch i r a s
        = (.error ("Failed to retrieve state update for block " ++ toString i),
           s + 5 * r) := by
  intro r
  induction r with
  | zero => intro a s _; simp [getStateUpdateLoop]
  | succ r ih =>
    intro a s hfail
    have h0 : fetch a = none := by simpa using hfail 0 (by omega)
    have hrec := ih (a + 1) (s + 5) (fun j hj => by
      have := hfail (j + 1) (by omega)
      simpa [Nat.add_assoc, Nat.add_comm 1 j] using this)
    simp only [getStateUpdateLoop, h0, hrec]
    refine Prod.ext rfl ?_
    simp
    omega

theorem getStateUpdateLoop_first_success {σ : Type} (fetch : Nat → Option σ) (i : Nat) :
    ∀ (k r a s : Nat) (su : σ), k < r → fetch (a + k) = some su →
      (∀ j, j < k → fetch (a + j) = none) →
      getStateUpdateLoop fetch i r a s = (.ok su, s + 5 * k) := by
  intro k
  induction k with
  | zero =>
    intro r a s su hkr hsucc _
    rcases r with _ | r
    · omega
    · simp only [getStateUpdateLoop]
      rw [show fetch a = some su by simpa using hsucc]
      simp
  | succ k ih =>
    intro r a s su hkr hsucc hfail
    rcases r with _ | r
    · omega
    · have h0 : fetch a = none := by simpa using hfail 0 (by omega)
      have hrec := ih r (a + 1) (s + 5) su (by omega)
        (by
          have : a + 1 + k = a + (k + 1) := by omega
          rw [this]
          exact hsucc)
        (fun j hj => by
          have := hfail (j + 1) (by omega)
          have he : a + (j + 1) = a + 1 + j := by omega
          rwa [he] at this)
      simp only [getStateUpdateLoop, h0, hrec]
      refine Prod.ext rfl ?_
      simp
      omega

/-! ## `commit_and_persist` (src/src/main.rs lines 173–232)

Hashes and field elements are `Nat`; `pathfinder_storage::Node` /
`StoredNode` and `TestStorage` are embedded structurally.  The input
`TreeUpdate` (the result of the external `tree.commit`) is a hash-keyed map
of nodes plus the root hash; Rust `expect`/`unwrap` panics are modelled by
the `crashed` constructor of `CommitResult`. -/

/-- `pathfinder_storage::Child`: a child reference, by storage index or by
content hash. -/
inductive Child where
  | id (idx : Nat)
  | hash (h : Nat)
deriving DecidableEq, Repr

/-- `pathfinder_storage::Node`: an update node whose children may still be
hash references. -/
inductive PNode where
  | binary (left right : Child)
  | edge (child : Child) (path : List Bool)
  | leafBinary
  | leafEdge (path : List Bool)
deriving DecidableEq, Repr

/-- `pathfinder_storage::StoredNode`: children resolved to indices. -/
inductive PStoredNode where
  | binary (left right : Nat)
  | edge (child : Nat) (path : List Bool)
  | leafBinary
  | leafEdge (path : List Bool)
deriving DecidableEq, Repr

/-- Result of running code that may hit a Rust `expect`/`unwrap` panic. -/
inductive CommitResult (α : Type) where
  | ok (val : α)
  | crashed (msg : String)
deriving DecidableEq, Repr

/-- `pathfinder_merkle_tree::tree::TestStorage`: persisted nodes indexed by
`u64`, each entry `(hash, node)`, plus the leaf value store. -/
structure TestStorage where
  nodes : List (Nat × (Nat × PStoredNode))
  leaves : List (Nat × Nat)
deriving DecidableEq, Repr

/-- The result of `tree.commit(storage)`: the update nodes keyed by their
content hash, and the root hash. -/
structure TreeUpdate where
  nodes : List (Nat × PNode)
  root : Nat
deriving DecidableEq, Repr

/-- The index-assignment loop (src/src/main.rs:186–191): `idx` starts at
`storage.nodes.len()` and each hash in iteration order receives the next
index. -/
def assignIndices : Nat → List Nat → List (Nat × Nat)
  | _, [] => []
  | idx, h :: hs => (h, idx) :: assignIndices (idx + 1) hs

/-- Resolve one child reference: `Child::Id` is kept, `Child::Hash` is looked
up in the assignment, and a missing assignment is the Rust
`.expect(msg)` panic (src/src/main.rs:196–216). -/
def resolveChild (indices : List (Nat × Nat)) (c : Child) (msg : String) :
    CommitResult Nat :=
  match c with
  | .id i => .ok i
  | .hash h =>
    match lookupKV indices h with
    | some i => .ok i
    | none => .crashed msg

/-- Resolve all child references of one update node (src/src/main.rs:193–222). -/
def resolveNode (indices : List (Nat × Nat)) : PNode → CommitResult PStoredNode
  | .binary l r =>
    match resolveChild indices l "Left child should have an index" with
    | .crashed m => .crashed m
    | .ok li =>
      match resolveChild indices r "Right child should have an index" with
      | .crashed m => .crashed m
      | .ok ri => .ok (.binary li ri)
  | .edge c p =>
    match resolveChild indices c "Child should have an index" with
    | .crashed m => .crashed m
    | .ok ci => .ok (.edge ci p)
  | .leafBinary => .ok .leafBinary
  | .leafEdge p => .ok (.leafEdge p)

/-- The persistence loop (src/src/main.rs:193–227): resolve each node and
insert it at its assigned index; the index lookup itself is an `unwrap`. -/
def persistLoop (indices : List (Nat × Nat)) :
    List (Nat × (Nat × PStoredNode)) → List (Nat × PNode) →
    CommitResult (List (Nat × (Nat × PStoredNode)))
  | ns, [] => .ok ns
  | ns, (h, node) :: rest =>
    match resolveNode indices node with
    | .crashed m => .crashed m
    | .ok sn =>
      match lookupKV indices h with
      | some i => persistLoop indices (setKV ns i (h, sn)) rest
      | none => .crashed "called Option.unwrap on a None value"

/-- `commit_and_persist` (src/src/main.rs:173–232): store the tree's leaves,
assign indices to the update's hashes starting at `storage.nodes.len()`,
resolve and persist every node, and return the root hash with its index. -/
def commit_and_persist (storage : TestStorage) (tree_leaves : List (List Bool × Nat))
    (update : TreeUpdate) : CommitResult ((Nat × Nat) × TestStorage) :=
  let leaves1 : List (Nat × Nat) :=
    tree_leaves.foldl (fun m kv => setKV m (pathVal kv.1) kv.2) storage.leaves
  let indices : List (Nat × Nat) :=
    assignIndices storage.nodes.length (update.nodes.map Prod.fst)
  match persistLoop indices storage.nodes update.nodes with
  | .crashed m => .crashed m
  | .ok nodes2 =>
    match lookupKV indices update.root with
    | some rootIdx => .ok ((update.root, rootIdx), ⟨nodes2, leaves1⟩)
    | none => .crashed "called Option.unwrap on a None value"

/-! ### Lemmas about index assignment and reference resolution -/

/-- Within one commit, the `j`-th distinct hash receives index `start + j`:
one index per hash, consecutive and monotonically increasing from the
current store size. -/
theorem lookupKV_assignIndices :
    ∀ (hs : List Nat) (s : Nat), hs.Nodup →
      ∀ (j : Nat) (hj : j < hs.length),
        lookupKV (assignIndices s hs) (hs.get ⟨j, hj⟩) = some (s + j) := by
  intro hs
  induction hs with
  | nil => intro s _ j hj; simp at hj
  | cons x xs ih =>
    intro s hnd j hj
    simp only [List.nodup_cons] at hnd
    cases j with
    | zero => simp [assignIndices, lookupKV]
    | succ j =>
      have hjx : j < xs.length := by simpa using hj
      have hx : ¬ (x = xs.get ⟨j, hjx⟩) := by
        intro h
        exact hnd.1 (h ▸ xs.get_mem _ _)
      simp only [assignIndices, lookupKV, List.get_cons_succ]
      rw [if_neg hx, ih (s + 1) hnd.2 j hjx]
      congr 1
      omega

/-- The hashes of an update node's unresolved (`Child::Hash`) references. -/
def childHashRef : Child → List Nat
  | .hash h => [h]
  | .id _ => []

/-- All unresolved child-hash references of an update node. -/
def childHashRefs : PNode → List Nat
  | .binary l r => childHashRef l ++ childHashRef r
  | .edge c _ => childHashRef c
  | .leafBinary => []
  | .leafEdge _ => []

theorem resolveChild_crashed_of_none {indices : List (Nat × Nat)} {c : Child}
    {hh : Nat} (msg : String) (hmem : hh ∈ childHashRef c)
    (hnone : lookupKV indices hh = none) :
    resolveChild indices c msg = .crashed msg := by
  cases c with
  | id i => simp [childHashRef] at hmem
  | hash h2 =>
    simp only [childHashRef, List.mem_singleton] at hmem
    subst hmem
    simp [resolveChild, hnone]

theorem resolveNode_crashes {indices : List (Nat × Nat)} {node : PNode}
    {hh : Nat} (hmem : hh ∈ childHashRefs node)
    (hnone : lookupKV indices hh = none) :
    ∀ sn, resolveNode indices node ≠ CommitResult.ok sn := by
  intro sn h
  cases node with
  | binary l r =>
    simp only [childHashRefs, List.mem_append] at hmem
    rcases hmem with hm | hm
    · have hc := resolveChild_crashed_of_none
        "Left child should have an index" hm hnone
      simp [resolveNode, hc] at h
    · rcases hcl : resolveChild indices l "Left child should have an index" with li | m
      · have hc := resolveChild_crashed_of_none
          "Right child should have an index" hm hnone
        simp [resolveNode, hcl, hc] at h
      · simp [resolveNode, hcl] at h
  | edge c p =>
    have hc := resolveChild_crashed_of_none
      "Child should have an index" hmem hnone
    simp [resolveNode, hc] at h
  | leafBinary => simp [childHashRefs] at hmem
  | leafEdge p => simp [childHashRefs] at hmem

theorem persistLoop_ok_resolved {indices : List (Nat × Nat)} :
    ∀ (upd : List (Nat × PNode)) (ns ns' : List (Nat × (Nat × PStoredNode))),
      persistLoop indices ns upd = .ok ns' →
      ∀ kv ∈ upd, ∀ hh ∈ childHashRefs kv.2, lookupKV indices hh ≠ none := by
  intro upd
  induction upd with
  | nil =>
    intro ns ns' _ kv hkv
    simp at hkv
  | cons hn rest ih =>
    intro ns ns' hok kv hkv hh hmem hnone
    rcases hn with ⟨h0, node0⟩
    rcases hres : resolveNode indices node0 with sn | m
    case crashed =>
      simp [persistLoop, hres] at hok
    case ok =>
      rcases List.mem_cons.mp hkv with hkv | hkv
      · subst hkv
        exact resolveNode_crashes hmem hnone sn hres
      · rcases hidx : lookupKV indices h0 with _ | i
        · simp [persistLoop, hres, hidx] at hok
        · have hok2 : persistLoop indices (setKV ns i (h0, sn)) rest = .ok ns' := by
            simpa [persistLoop, hres, hidx] using hok
          exact ih _ _ hok2 kv hkv hh hmem hnone

/-- If any node of the update refers to a child hash with no assigned index,
`commit_and_persist` does not return normally (it hits a Rust panic). -/
theorem commit_and_persist_unresolved_crashes
    (storage : TestStorage) (tree_leaves : List (List Bool × Nat)) (update : TreeUpdate)
    (h : ∃ kv ∈ update.nodes, ∃ hh ∈ childHashRefs kv.2,
        lookupKV (assignIndices storage.nodes.length (update.nodes.map Prod.fst)) hh
          = none) :
    ∀ r, commit_and_persist storage tree_leaves update ≠ .ok r := by
  intro r hok
  rcases h with ⟨kv, hkv, hh, hmem, hnone⟩
  simp only [commit_and_persist] at hok
  rcases hp : persistLoop (assignIndices storage.nodes.length (update.nodes.map Prod.fst))
      storage.nodes update.nodes with ns2 | m
  · exact persistLoop_ok_resolved update.nodes storage.nodes ns2 hp kv hkv hh hmem hnone
  · rw [hp] at hok
    simp at hok

/-! ### Lemmas about the accumulation store -/

/-- The last-write-wins collapse of a write list has the write list's
last-value semantics. -/
theorem lastVal_applyAll_nil {α β : Type} [DecidableEq α]
    (writes : List (α × β)) (k : α) :
    lastVal (applyAll ([] : List (α × β)) writes) k = lastVal writes k := by
  have hnd : ((applyAll ([] : List (α × β)) writes).map Prod.fst).Nodup :=
    nodup_keys_applyAll writes [] (by simp)
  rw [lastVal_eq_lookupKV hnd, lookupKV_applyAll]
  simp [lookupKV]

/-! ## Claim theorems -/

/-- C5: for every 256-bit key, the bit path used as the trie traversal key is
produced by discarding the 5 highest-order bits and preserving the remaining
251 bits in most-significant-first order (bit `t` of the path is bit
`250 - t` of the key modulo `2^251`), and both implementations in the
program apply this identical encoding to the same key bytes. -/
theorem claim5_key_path_encoding (k : Nat) :
    bonsaiKeyPath k = pathfinderKeyPath k ∧
    (bonsaiKeyPath k).length = 251 ∧
    bonsaiKeyPath k = (List.range 251).map (fun t => (k % 2 ^ 251).testBit (250 - t)) :=
  ⟨(pathfinderKeyPath_eq_bonsai k).symm, bonsaiKeyPath_length k, bonsaiKeyPath_eq k⟩

/-- C9: every key path the driver passes to either trie's insert has length
exactly 251 bits, so the `InvalidKeyLength` failure branch of insert is
unreachable from this driver: the checked insert always returns `ok`. -/
theorem claim9_key_length_251 (k : Nat) (t : Option TrieNode) (v : Nat) :
    (bonsaiKeyPath k).length = 251 ∧
    (pathfinderKeyPath k).length = 251 ∧
    insert_checked t (bonsaiKeyPath k) v = .ok (insertT t (bonsaiKeyPath k) v) ∧
    insert_checked t (pathfinderKeyPath k) v = .ok (insertT t (pathfinderKeyPath k) v) := by
  have h1 := bonsaiKeyPath_length k
  have h2 : (pathfinderKeyPath k).length = 251 := by
    rw [pathfinderKeyPath_eq_bonsai]; exact h1
  exact ⟨h1, h2, by simp [insert_checked, h1], by simp [insert_checked, h2]⟩

/-- C7: `save_storage_update` is last-write-wins within the batch and across
batches: afterwards a key maps to the last value the batch gives for it, and
a key absent from the batch keeps its previously accumulated value. -/
theorem claim7_last_write_wins (store : ContractStorage) (addr : Nat)
    (updates : List (Nat × Nat)) (key : Nat) :
    lookup2 (save_storage_update store addr updates) addr key
      = orO (lastVal updates key) (lookup2 store addr key) := by
  rcases hold : lookupKV store addr with _ | old
  · have h1 : lookupKV (save_storage_update store addr updates) addr
        = some (applyAll [] updates) := by
      simp only [save_storage_update, hold]
      rw [lookupKV_setKV, if_pos rfl]
    simp only [lookup2, h1, hold, lookupKV_applyAll]
    simp [lookupKV]
  · have h1 : lookupKV (save_storage_update store addr updates) addr
        = some (applyAll old (applyAll [] updates)) := by
      simp only [save_storage_update, hold]
      rw [lookupKV_setKV, if_pos rfl]
    simp only [lookup2, h1, hold, lookupKV_applyAll]
    rw [lastVal_applyAll_nil]

/-- C10: `save_storage_update` for contract `addr` leaves the accumulated
storage of every other contract address unchanged. -/
theorem claim10_frame_other_contracts (store : ContractStorage) (addr addr' : Nat)
    (updates : List (Nat × Nat)) (h : addr' ≠ addr) :
    lookupKV (save_storage_update store addr updates) addr'
      = lookupKV store addr' := by
  have hne : ¬ (addr = addr') := fun hh => h hh.symm
  rcases hold : lookupKV store addr with _ | old <;>
    simp only [save_storage_update, hold] <;>
    rw [lookupKV_setKV, if_neg hne]

/-- Witness for C10 at a concrete store and distinct addresses. -/
theorem claim10_witness :
    lookupKV (save_storage_update [(1, [(10, 100)])] 2 [(5, 6)]) 1
      = lookupKV [(1, [(10, 100)])] 1 :=
  claim10_frame_other_contracts [(1, [(10, 100)])] 2 1 [(5, 6)] (by decide)

/-- C6: `get_state_update` makes up to 15 fetch attempts with a fixed
5-second sleep after each failure, returns the first successful result
(having slept 5 seconds between consecutive attempts), and after all 15
attempts fail returns an error for that block (75 seconds slept in total)
rather than retrying further. -/
theorem claim6_retry_policy {σ : Type} (fetch : Nat → Option σ) (i : Nat) :
    ((∀ j, j < 15 → fetch j = none) →
      get_state_update fetch i
        = (.error ("Failed to retrieve state update for block " ++ toString i), 75))
    ∧ (∀ k su, k < 15 → fetch k = some su → (∀ j, j < k → fetch j = none) →
      get_state_update fetch i = (.ok su, 5 * k)) := by
  constructor
  · intro hfail
    have h := getStateUpdateLoop_all_none fetch i 15 0 0
      (fun j hj => by simpa using hfail j hj)
    simpa [get_state_update] using h
  · intro k su hk hsucc hfail
    have h := getStateUpdateLoop_first_success fetch i k 15 0 0 su hk
      (by simpa using hsucc) (fun j hj => by simpa using hfail j hj)
    simpa [get_state_update] using h

/-- Witness for C6: a provider failing on attempts 0–2 and succeeding on
attempt 3 yields that result after 15 seconds of sleeping. -/
theorem claim6_witness :
    get_state_update (fun j => if j = 3 then some (99 : Nat) else none) 7
      = (.ok 99, 15) := by
  have h := (claim6_retry_policy (fun j => if j = 3 then some (99 : Nat) else none) 7).2
    3 99 (by omega) (by simp) (by decide)
  simpa using h

/-- The insert-then-commit pipeline the driver runs against each engine
(`bonsai_storage_root` / `pathfinder_storage_root`): encode every key of the
accumulated set, insert them all, commit once and take the root hash. -/
def insertEngineStorageRoot (H : Nat → Nat → Nat) (pairs : List (Nat × Nat)) : Nat :=
  rootHash H (insertAll (pairs.map (fun kv => (bonsaiKeyPath kv.1, kv.2))))

/-- A second, independently written conforming implementation following the
spec's words: the root hash as a direct function of the final key→value
mapping, via the canonical compressed trie of the 251-bit key set. -/
def canonicalStorageRoot (H : Nat → Nat → Nat) (pairs : List (Nat × Nat)) : Nat :=
  rootHash H (build 251 (pairs.map (fun kv => (pathfinderKeyPath kv.1, kv.2))))

/-- C1: given the identical accumulated (key, value) set (distinct encoded
keys, as delivered by the per-contract map), the insert-then-commit trie
engine and the canonical mapping-based implementation produce the identical
root hash, for every choice of the shared two-input hash `H`. -/
theorem claim1_cross_implementation_agreement (H : Nat → Nat → Nat)
    (pairs : List (Nat × Nat))
    (hnd : (pairs.map (fun kv => bonsaiKeyPath kv.1)).Nodup) :
    insertEngineStorageRoot H pairs = canonicalStorageRoot H pairs := by
  have hkeys : ((pairs.map (fun kv => (bonsaiKeyPath kv.1, kv.2))).map Prod.fst)
      = pairs.map (fun kv => bonsaiKeyPath kv.1) := by
    simp [List.map_map]
  have hndps : ((pairs.map (fun kv => (bonsaiKeyPath kv.1, kv.2))).map Prod.fst).Nodup := by
    rw [hkeys]; exact hnd
  have hlen : ∀ kv ∈ pairs.map (fun kv => (bonsaiKeyPath kv.1, kv.2)),
      kv.1.length = 251 := by
    intro kv hkv
    rcases List.mem_map.mp hkv with ⟨p0, _, heq⟩
    rw [← heq]
    exact bonsaiKeyPath_length p0.1
  show rootHash H (insertAll (pairs.map (fun kv => (bonsaiKeyPath kv.1, kv.2))))
      = rootHash H (build 251 (pairs.map (fun kv => (pathfinderKeyPath kv.1, kv.2))))
  have hsame : pairs.map (fun kv => (pathfinderKeyPath kv.1, kv.2))
      = pairs.map (fun kv => (bonsaiKeyPath kv.1, kv.2)) := rfl
  rw [hsame, insertAll_eq_build 251 _ hlen]
  congr 1
  apply build_ext 251
  · intro kv hkv
    rcases mem_applyAll _ [] hkv with h | h
    · simp at h
    · exact hlen kv h
  · exact hlen
  · exact nodup_keys_applyAll _ [] (by simp)
  · exact hndps
  · intro k
    rw [lookupKV_applyAll]
    simp only [lookupKV, orO_none_right]
    exact lastVal_eq_lookupKV hndps k

set_option maxRecDepth 100000 in
/-- Witness for C1 at a concrete hash function and two concrete keys. -/
theorem claim1_witness :
    insertEngineStorageRoot (fun a b => a + 2 * b + 1) [(1, 42), (2, 7)]
      = canonicalStorageRoot (fun a b => a + 2 * b + 1) [(1, 42), (2, 7)] :=
  claim1_cross_implementation_agreement (fun a b => a + 2 * b + 1) [(1, 42), (2, 7)]
    (by decide)

/-- C2: the root hash of the insert-then-commit-once pipeline is a pure
function of the final last-write-wins key→value mapping: two write lists
with the same last value for every key — in particular any two permutations
of one duplicate-free set, or any rebatching of it — commit to the same
root hash. -/
theorem claim2_order_independence (H : Nat → Nat → Nat)
    (ps ps' : List (List Bool × Nat))
    (hlen : ∀ kv ∈ ps, kv.1.length = 251)
    (hlen' : ∀ kv ∈ ps', kv.1.length = 251)
    (hsame : ∀ k, lastVal ps k = lastVal ps' k) :
    rootHash H (insertAll ps) = rootHash H (insertAll ps') := by
  rw [insertAll_eq_build 251 ps hlen, insertAll_eq_build 251 ps' hlen']
  congr 1
  apply build_ext 251
  · intro kv hkv
    rcases mem_applyAll ps [] hkv with h | h
    · simp at h
    · exact hlen kv h
  · intro kv hkv
    rcases mem_applyAll ps' [] hkv with h | h
    · simp at h
    · exact hlen' kv h
  · exact nodup_keys_applyAll ps [] (by simp)
  · exact nodup_keys_applyAll ps' [] (by simp)
  · intro k
    rw [lookupKV_applyAll, lookupKV_applyAll]
    simp only [lookupKV, orO_none_right]
    exact hsame k

set_option maxRecDepth 100000 in
/-- Witness for C2: the two orders of a concrete two-key set agree. -/
theorem claim2_witness :
    rootHash (fun a b => a + 2 * b + 1)
        (insertAll [(bonsaiKeyPath 1, 5), (bonsaiKeyPath 2, 6)])
      = rootHash (fun a b => a + 2 * b + 1)
        (insertAll [(bonsaiKeyPath 2, 6), (bonsaiKeyPath 1, 5)]) := by
  apply claim2_order_independence
  · intro kv hkv
    rcases List.mem_cons.mp hkv with h | h
    · rw [h]; exact bonsaiKeyPath_length 1
    · rcases List.mem_cons.mp h with h2 | h2
      · rw [h2]; exact bonsaiKeyPath_length 2
      · simp at h2
  · intro kv hkv
    rcases List.mem_cons.mp hkv with h | h
    · rw [h]; exact bonsaiKeyPath_length 2
    · rcases List.mem_cons.mp h with h2 | h2
      · rw [h2]; exact bonsaiKeyPath_length 1
      · simp at h2
  · intro k
    by_cases h1 : bonsaiKeyPath 1 = k
    · by_cases h2 : bonsaiKeyPath 2 = k
      · exact absurd (h1.trans h2.symm) (by decide)
      · simp [lastVal, h1, h2, orO]
    · by_cases h2 : bonsaiKeyPath 2 = k
      · simp [lastVal, h1, h2, orO]
      · simp [lastVal, h1, h2, orO]

/-- C3 counterexample: a hash (42) that already exists in the stored trie at
index 0 is assigned the fresh index 1 rather than reusing the existing one,
and after the commit the store holds the same hash under two different
indices — refuting "its existing index is reused" and "each hash receives
exactly one index for the lifetime of the store". -/
theorem claim3_counterexample :
    lookupKV (assignIndices
        (TestStorage.mk [(0, (42, PStoredNode.leafBinary))] []).nodes.length
        ((TreeUpdate.mk [(42, PNode.leafBinary)] 42).nodes.map Prod.fst)) 42 = some 1
    ∧ lookupKV (TestStorage.mk [(0, (42, PStoredNode.leafBinary))] []).nodes 0
        = some (42, PStoredNode.leafBinary)
    ∧ commit_and_persist (TestStorage.mk [(0, (42, PStoredNode.leafBinary))] []) []
        (TreeUpdate.mk [(42, PNode.leafBinary)] 42)
      = .ok ((42, 1),
          TestStorage.mk [(1, (42, PStoredNode.leafBinary)),
                          (0, (42, PStoredNode.leafBinary))] []) :=
  ⟨rfl, rfl, rfl⟩

/-- C3 (amended): within a single commit each distinct hash of the update
receives exactly one index, assigned monotonically increasing from the
current store size (the `j`-th hash gets `len + j`); a hash already present
in the store from an earlier commit is not detected and is assigned a fresh
index as well. -/
theorem claim3_amended_one_index_per_hash (s : Nat) (hs : List Nat) (hnd : hs.Nodup)
    (j : Nat) (hj : j < hs.length) :
    lookupKV (assignIndices s hs) (hs.get ⟨j, hj⟩) = some (s + j) :=
  lookupKV_assignIndices hs s hnd j hj

/-- Witness for C3 (amended) at a concrete store size and hash list. -/
theorem claim3_witness :
    lookupKV (assignIndices 1 [42, 7]) ([42, 7].get ⟨1, by decide⟩) = some (1 + 1) :=
  claim3_amended_one_index_per_hash 1 [42, 7] (by decide) 1 (by decide)

/-- C4 counterexample: a commit whose update contains an edge node referring
to child hash 99, which has no assigned index, terminates in the Rust
`expect` panic "Child should have an index" — it does not fail with a typed
`UnresolvedChildReference` error (no such error type exists in the code). -/
theorem claim4_counterexample :
    commit_and_persist (TestStorage.mk [] []) []
        (TreeUpdate.mk [(5, PNode.edge (Child.hash 99) [true])] 5)
      = .crashed "Child should have an index" := rfl

/-- Did the commit return normally? -/
def isOk {α : Type} : CommitResult α → Bool
  | .ok _ => true
  | .crashed _ => false

/-- C4 (amended): a child reference whose target hash has no assigned index
causes `commit_and_persist` to panic (`expect`), so the commit never returns
normally on such an update; the spec's `UnresolvedChildReference` typed
error is not implemented. -/
theorem claim4_amended_unresolved_child_panics
    (storage : TestStorage) (tree_leaves : List (List Bool × Nat)) (update : TreeUpdate)
    (h : ∃ kv ∈ update.nodes, ∃ hh ∈ childHashRefs kv.2,
        lookupKV (assignIndices storage.nodes.length (update.nodes.map Prod.fst)) hh
          = none) :
    isOk (commit_and_persist storage tree_leaves update) = false := by
  rcases hres : commit_and_persist storage tree_leaves update with r | m
  · exact absurd hres (commit_and_persist_unresolved_crashes storage tree_leaves update h r)
  · rfl

/-- Witness for C4 (amended) at the concrete unresolved-child update. -/
theorem claim4_witness :
    isOk (commit_and_persist (TestStorage.mk [] []) []
        (TreeUpdate.mk [(5, PNode.edge (Child.hash 99) [true])] 5)) = false :=
  claim4_amended_unresolved_child_panics (TestStorage.mk [] []) []
    (TreeUpdate.mk [(5, PNode.edge (Child.hash 99) [true])] 5) (by decide)

/-- C8: committing a trie with zero inserts.  The spec-modelled trie commit
yields the sentinel root 0 for the empty mapping (second conjunct), but the
repository's `commit_and_persist`, fed the resulting empty update, panics
unwrapping `indices.get(&update.root)` because the empty commit assigned no
index to the root hash — instead of returning the sentinel without error. -/
theorem claim8_empty_commit_crashes :
    commit_and_persist (TestStorage.mk [] []) [] (TreeUpdate.mk [] 0)
      = .crashed "called Option.unwrap on a None value"
    ∧ ∀ H : Nat → Nat → Nat, rootHash H (insertAll []) = 0 :=
  ⟨rfl, fun _ => rfl⟩

end DeoxysTest
